import Mathlib

set_option maxHeartbeats 1000000

open Matrix

/-!
Shallow embedding of the substantive computations of the
`linear_model_selection` notebook: the exclusion-index computation of the
leave-one-out (LOO) loop, the design-matrix construction
`np.vstack(basis_vectors[:k]).T`, the least-squares solve
`np.linalg.lstsq` (modelled by its documented minimum-norm least-squares
contract, in exact rational arithmetic), the LOO refit loop itself, and
the model-comparison table of `az.compare` (modelled from the design
specification, since `arviz` is an external library).
-/

/-- Embedding of `indices = np.r_[0:i-1, i+1:len(x)]` from the LOO loop.
`np.r_` turns the slice `a:b` into `np.arange(a, b)`; for `i = 0` the first
slice is `arange(0, -1) = []`, which truncated subtraction on `ℕ` matches
(`List.range 0 = []`). -/
def indices (i n : ℕ) : List ℕ :=
  List.range (i - 1) ++ List.range' (i + 1) (n - (i + 1))

/-- Embedding of `design_matrix = np.vstack(basis_vectors[:k]).T`: row `i`,
entry `j` of the result is `basis_vectors[j][i]`.  `np.vstack([])` raises
(`need at least one array to concatenate`), hence `none` when the slice
`basis_vectors[:k]` is empty.  As in the notebook, all basis vectors are
assumed to share one length `N` (the row count is read off the first
retained vector, as `vstack` does for equal-length inputs). -/
def design_matrix (bvs : List (List ℚ)) (k : ℕ) : Option (List (List ℚ)) :=
  match bvs.take k with
  | [] => none
  | b :: bs => some ((List.range b.length).map fun i => (b :: bs).map fun c => c.getD i 0)

/-- Sum of squares of a vector: `‖v‖²` in exact arithmetic. -/
def sumSq {m : ℕ} (v : Fin m → ℚ) : ℚ := v ⬝ᵥ v

/-- `β` minimises the residual sum of squares `‖y - Xβ‖²`. -/
def IsLeastSq {n k : ℕ} (X : Matrix (Fin n) (Fin k) ℚ) (y : Fin n → ℚ)
    (β : Fin k → ℚ) : Prop :=
  ∀ b : Fin k → ℚ, sumSq (y - X.mulVec β) ≤ sumSq (y - X.mulVec b)

/-- `β` is a least-squares solution of smallest norm among all
least-squares solutions — the documented return contract of
`np.linalg.lstsq` for under-determined and rank-deficient systems. -/
def IsMinNormLeastSq {n k : ℕ} (X : Matrix (Fin n) (Fin k) ℚ) (y : Fin n → ℚ)
    (β : Fin k → ℚ) : Prop :=
  IsLeastSq X y β ∧ ∀ b : Fin k → ℚ, IsLeastSq X y b → sumSq β ≤ sumSq b

/-- An orthogonal projection onto the span of a finite list of vectors of
`ℚ^m` exists: a Gram–Schmidt style induction on the list.  (Stated as a
`def` of an existential because the solver definition below extracts its
witness.) -/
def proj_span_list {m : ℕ} : ∀ (L : List (Fin m → ℚ)) (v : Fin m → ℚ),
    ∃ w, w ∈ Submodule.span ℚ {x : Fin m → ℚ | x ∈ L} ∧
      ∀ u ∈ Submodule.span ℚ {x : Fin m → ℚ | x ∈ L}, (v - w) ⬝ᵥ u = 0
  | [], v => by
    refine ⟨0, Submodule.zero_mem _, fun u hu => ?_⟩
    have hset : {x : Fin m → ℚ | x ∈ ([] : List (Fin m → ℚ))} = (∅ : Set (Fin m → ℚ)) := by
      ext z; simp
    rw [hset, Submodule.span_empty, Submodule.mem_bot] at hu
    subst hu
    simp
  | a :: L', v => by
    obtain ⟨w', hw'm, hw'o⟩ := proj_span_list L' v
    obtain ⟨a', ha'm, ha'o⟩ := proj_span_list L' a
    have hset : {x : Fin m → ℚ | x ∈ a :: L'} = insert a {x : Fin m → ℚ | x ∈ L'} := by
      ext z; simp [List.mem_cons]
    rw [hset]
    have hsub : Submodule.span ℚ {x : Fin m → ℚ | x ∈ L'} ≤
        Submodule.span ℚ (insert a {x : Fin m → ℚ | x ∈ L'}) :=
      Submodule.span_mono (Set.subset_insert _ _)
    by_cases hs : a - a' = 0
    · -- the new vector is already in the span of the earlier ones
      have ha : a ∈ Submodule.span ℚ {x : Fin m → ℚ | x ∈ L'} := by
        have : a = a' := by
          have := sub_eq_zero.mp hs
          exact this
        rw [this]; exact ha'm
      rw [Submodule.span_insert_eq_span ha]
      exact ⟨w', hw'm, hw'o⟩
    · -- genuinely new direction `s`, correct by its rescaled component
      have hssne : (a - a') ⬝ᵥ (a - a') ≠ 0 := fun h => hs (dotProduct_self_eq_zero.mp h)
      refine ⟨w' + (((v - w') ⬝ᵥ (a - a')) / ((a - a') ⬝ᵥ (a - a'))) • (a - a'),
        ?_, fun u hu => ?_⟩
      · have hamem : a ∈ Submodule.span ℚ (insert a {x : Fin m → ℚ | x ∈ L'}) :=
          Submodule.subset_span (Set.mem_insert _ _)
        exact Submodule.add_mem _ (hsub hw'm)
          (Submodule.smul_mem _ _ (Submodule.sub_mem _ hamem (hsub ha'm)))
      · obtain ⟨d, z, hz, rfl⟩ := Submodule.mem_span_insert.mp hu
        have hra' : (v - w') ⬝ᵥ a' = 0 := hw'o a' ha'm
        have hsa' : (a - a') ⬝ᵥ a' = 0 := ha'o a' ha'm
        have hrz : (v - w') ⬝ᵥ z = 0 := hw'o z hz
        have hsz : (a - a') ⬝ᵥ z = 0 := ha'o z hz
        have hsplit : v - (w' + (((v - w') ⬝ᵥ (a - a')) / ((a - a') ⬝ᵥ (a - a'))) • (a - a'))
            = (v - w') - (((v - w') ⬝ᵥ (a - a')) / ((a - a') ⬝ᵥ (a - a'))) • (a - a') := by
          abel
        have expand : (v - (w' + (((v - w') ⬝ᵥ (a - a')) / ((a - a') ⬝ᵥ (a - a'))) • (a - a')))
              ⬝ᵥ (d • a + z)
            = ((v - w') ⬝ᵥ (d • a + z))
              - (((v - w') ⬝ᵥ (a - a')) / ((a - a') ⬝ᵥ (a - a'))) * ((a - a') ⬝ᵥ (d • a + z)) := by
          rw [hsplit, sub_dotProduct, smul_dotProduct, smul_eq_mul]
        have h1 : (v - w') ⬝ᵥ (d • a + z) = d * ((v - w') ⬝ᵥ (a - a')) := by
          rw [dotProduct_add, dotProduct_smul, hrz, smul_eq_mul, add_zero]
          congr 1
          have hsplit2 : (v - w') ⬝ᵥ a = (v - w') ⬝ᵥ a' + (v - w') ⬝ᵥ (a - a') := by
            rw [← dotProduct_add]
            congr 1
            abel
          rw [hsplit2, hra', zero_add]
        have h2 : (a - a') ⬝ᵥ (d • a + z) = d * ((a - a') ⬝ᵥ (a - a')) := by
          rw [dotProduct_add, dotProduct_smul, hsz, smul_eq_mul, add_zero]
          congr 1
          have hsplit3 : (a - a') ⬝ᵥ a = (a - a') ⬝ᵥ a' + (a - a') ⬝ᵥ (a - a') := by
            rw [← dotProduct_add]
            congr 1
            abel
          rw [hsplit3, hsa', zero_add]
        rw [expand, h1, h2, mul_comm d ((a - a') ⬝ᵥ (a - a')), ← mul_assoc,
          div_mul_cancel₀ _ hssne]
        ring

/-- Orthogonal projections onto arbitrary submodules of `ℚ^m` exist
(every such submodule is finitely generated). -/
def proj_exists {m : ℕ} (W : Submodule ℚ (Fin m → ℚ)) (v : Fin m → ℚ) :
    ∃ w, w ∈ W ∧ ∀ u ∈ W, (v - w) ⬝ᵥ u = 0 := by
  obtain ⟨S, hS⟩ := IsNoetherian.noetherian (R := ℚ) W
  obtain ⟨w, hm, ho⟩ := proj_span_list S.toList v
  have hset : {x : Fin m → ℚ | x ∈ S.toList} = (↑S : Set (Fin m → ℚ)) := by
    ext z; simp
  rw [hset, hS] at hm ho
  exact ⟨w, hm, ho⟩

/-- The orthogonal projection of `v` onto `W`. -/
noncomputable def projW {m : ℕ} (W : Submodule ℚ (Fin m → ℚ)) (v : Fin m → ℚ) :
    Fin m → ℚ :=
  Classical.choose (proj_exists W v)

/-- Defining property of `projW`. -/
def projW_spec {m : ℕ} (W : Submodule ℚ (Fin m → ℚ)) (v : Fin m → ℚ) :
    projW W v ∈ W ∧ ∀ u ∈ W, (v - projW W v) ⬝ᵥ u = 0 :=
  Classical.choose_spec (proj_exists W v)

/-- The projection of `y` onto the column space of `X` has a preimage. -/
def lstsq_pre_exists {n k : ℕ} (X : Matrix (Fin n) (Fin k) ℚ) (y : Fin n → ℚ) :
    ∃ b : Fin k → ℚ, X.mulVec b = projW (LinearMap.range X.mulVecLin) y := by
  obtain ⟨b, hb⟩ := LinearMap.mem_range.mp (projW_spec (LinearMap.range X.mulVecLin) y).1
  exact ⟨b, by rw [← Matrix.mulVecLin_apply]; exact hb⟩

/-- Embedding of `np.linalg.lstsq(A, b, rcond=-1)[0]`.  Its documented
contract is the minimum-norm least-squares solution (computed by SVD);
modelled here over exact rationals as: project `y` onto the column space
of `X`, then pick the preimage orthogonal to the kernel of `X`. -/
noncomputable def lstsq {n k : ℕ} (X : Matrix (Fin n) (Fin k) ℚ) (y : Fin n → ℚ) :
    Fin k → ℚ :=
  Classical.choose (lstsq_pre_exists X y) -
    projW (LinearMap.ker X.mulVecLin) (Classical.choose (lstsq_pre_exists X y))

/-- The `np.linalg.lstsq` call as a fallible operation.  The routine raises
only on shape mismatch (excluded here by the index types) or SVD
non-convergence (absent in exact arithmetic); in particular it has **no**
failure path for under-determined (`N < k`) or rank-deficient inputs, so
every call returns a result. -/
noncomputable def np_linalg_lstsq {n k : ℕ} (X : Matrix (Fin n) (Fin k) ℚ)
    (y : Fin n → ℚ) : Option (Fin k → ℚ) :=
  some (lstsq X y)

/-- The collections visible to the notebook's LOO loop, threaded explicitly:
the basis vectors, the `x` and `y` series, the design matrix, and the
running `loo_statistic` accumulator.  Only `acc` is ever rebound by the
loop body. -/
structure LooState where
  basis_vectors : List (List ℚ)
  x : List ℚ
  y : List ℚ
  dm : List (List ℚ)
  acc : ℚ

/-- `np.linalg.lstsq` applied to a row-selected design matrix and
observation vector held as lists (entry `(i, j)` of the matrix argument is
`rows[i][j]`). -/
noncomputable def lstsqList (k : ℕ) (rows : List (List ℚ)) (yv : List ℚ) : Fin k → ℚ :=
  lstsq (Matrix.of fun i : Fin rows.length => fun j : Fin k => (rows.get i).getD j 0)
    (fun i : Fin rows.length => yv.getD i 0)

/-- One iteration of the notebook's LOO loop: select the training rows with
`indices`, refit by least squares, predict the held-out point from row `i`
of the full design matrix, and accumulate the squared error.  (The `x_in`
slice the notebook also computes is unused by the source computation.) -/
noncomputable def looBody (k : ℕ) (s : LooState) (i : ℕ) : LooState :=
  let idx := indices i s.x.length
  let y_in := idx.map fun j => s.y.getD j 0
  let design_matrix_in := idx.map fun j => s.dm.getD j []
  let betas := lstsqList k design_matrix_in y_in
  let y_out := ∑ j : Fin k, (s.dm.getD i []).getD j 0 * betas j
  { s with acc := s.acc + (s.y.getD i 0 - y_out) ^ 2 }

/-- The notebook's `loo_statistic` for one model: run the loop over every
index and normalise by the dataset length. -/
noncomputable def loo_statistic (k : ℕ) (bvs : List (List ℚ)) (xv yv : List ℚ)
    (dm : List (List ℚ)) : ℚ :=
  ((List.range xv.length).foldl (looBody k) ⟨bvs, xv, yv, dm, 0⟩).acc / xv.length

/-- One model's input to the comparison table: identifier, number of basis
vectors, predictive-accuracy estimate and its standard error.  The input
mapping is kept as a list in insertion order, per the design's
ordered-mapping requirement. -/
structure ScoreEntry where
  ident : ℕ
  nBasis : ℕ
  estimate : ℚ
  stdErr : ℚ
  deriving DecidableEq

/-- Modelled from the spec: the comparison order of the Model Ranking
component (`az.compare` is an external library, so the ranking rule is
taken from the design document): ascending by estimate, ties broken by
fewer basis vectors. -/
def keyLe (a b : ScoreEntry) : Prop :=
  a.estimate < b.estimate ∨ (a.estimate = b.estimate ∧ a.nBasis ≤ b.nBasis)

instance keyLe_decidable (a b : ScoreEntry) : Decidable (keyLe a b) := by
  unfold keyLe
  infer_instance

/-- Modelled from the spec: stable insertion — a new entry is placed before
the first existing entry it compares at-most-equal to, so entries with
strictly smaller keys stay ahead and equal-keyed entries keep insertion
order. -/
def insertRow (e : ScoreEntry) : List ScoreEntry → List ScoreEntry
  | [] => [e]
  | f :: fs => if keyLe e f then e :: f :: fs else f :: insertRow e fs

/-- Modelled from the spec: stable insertion sort of the score entries. -/
def sortRows : List ScoreEntry → List ScoreEntry
  | [] => []
  | e :: es => insertRow e (sortRows es)

/-- One output row of the Model Comparison Table: identifier, rank,
estimate, standard error, and difference from the best estimate. -/
structure CompareRow where
  ident : ℕ
  rank : ℕ
  estimate : ℚ
  stdErr : ℚ
  delta : ℚ
  deriving DecidableEq

/-- Annotate the sorted entries with ranks `r, r+1, ...` and with
`delta = estimate - best`. -/
def attachRows (best : ℚ) : ℕ → List ScoreEntry → List CompareRow
  | _, [] => []
  | r, e :: es =>
    ⟨e.ident, r, e.estimate, e.stdErr, e.estimate - best⟩ :: attachRows best (r + 1) es

/-- Modelled from the spec: `compare` of the Model Ranking component
(the notebook's `az.compare(inference_data_dict, ic=...)` call, whose
implementation lives in the external `arviz` library): sort ascending by
estimate with the tie-break policy, then annotate rank and
`delta = estimate - bestEstimate`. -/
def az_compare (scores : List ScoreEntry) : List CompareRow :=
  match sortRows scores with
  | [] => []
  | best :: rest => attachRows best.estimate 0 (best :: rest)

theorem sumSq_nonneg {m : ℕ} (v : Fin m → ℚ) : 0 ≤ sumSq v := by
  unfold sumSq Matrix.dotProduct
  exact Finset.sum_nonneg fun i _ => mul_self_nonneg (v i)

theorem sumSq_add_of_orth {m : ℕ} (u w : Fin m → ℚ) (h : u ⬝ᵥ w = 0) :
    sumSq (u + w) = sumSq u + sumSq w := by
  unfold sumSq
  rw [dotProduct_add, add_dotProduct, add_dotProduct, dotProduct_comm w u, h]
  ring

theorem mulVec_mem_range {n k : ℕ} (X : Matrix (Fin n) (Fin k) ℚ) (b : Fin k → ℚ) :
    X.mulVec b ∈ LinearMap.range X.mulVecLin :=
  ⟨b, Matrix.mulVecLin_apply X b⟩

theorem mulVec_lstsq {n k : ℕ} (X : Matrix (Fin n) (Fin k) ℚ) (y : Fin n → ℚ) :
    X.mulVec (lstsq X y) = projW (LinearMap.range X.mulVecLin) y := by
  have hb := Classical.choose_spec (lstsq_pre_exists X y)
  have hq := (projW_spec (LinearMap.ker X.mulVecLin)
      (Classical.choose (lstsq_pre_exists X y))).1
  have hq0 : X.mulVec (projW (LinearMap.ker X.mulVecLin)
      (Classical.choose (lstsq_pre_exists X y))) = 0 := by
    have hmem := LinearMap.mem_ker.mp hq
    rwa [Matrix.mulVecLin_apply] at hmem
  unfold lstsq
  have hsub : X.mulVec (Classical.choose (lstsq_pre_exists X y) -
        projW (LinearMap.ker X.mulVecLin) (Classical.choose (lstsq_pre_exists X y)))
      = X.mulVec (Classical.choose (lstsq_pre_exists X y)) -
        X.mulVec (projW (LinearMap.ker X.mulVecLin)
          (Classical.choose (lstsq_pre_exists X y))) := by
    rw [← Matrix.mulVecLin_apply, ← Matrix.mulVecLin_apply, ← Matrix.mulVecLin_apply, map_sub]
  rw [hsub, hb, hq0, sub_zero]

theorem lstsq_residual_orth {n k : ℕ} (X : Matrix (Fin n) (Fin k) ℚ) (y : Fin n → ℚ) :
    ∀ u ∈ LinearMap.range X.mulVecLin, (y - X.mulVec (lstsq X y)) ⬝ᵥ u = 0 := by
  rw [mulVec_lstsq]
  exact (projW_spec _ _).2

theorem lstsq_isLeastSq {n k : ℕ} (X : Matrix (Fin n) (Fin k) ℚ) (y : Fin n → ℚ) :
    IsLeastSq X y (lstsq X y) := by
  intro b
  have hdecomp : y - X.mulVec b
      = (y - X.mulVec (lstsq X y)) + (X.mulVec (lstsq X y) - X.mulVec b) := by abel
  have hmem : X.mulVec (lstsq X y) - X.mulVec b ∈ LinearMap.range X.mulVecLin :=
    Submodule.sub_mem _ (mulVec_mem_range X _) (mulVec_mem_range X b)
  rw [hdecomp, sumSq_add_of_orth _ _ (lstsq_residual_orth X y _ hmem)]
  have := sumSq_nonneg (X.mulVec (lstsq X y) - X.mulVec b)
  linarith

theorem isLeastSq_mulVec_eq {n k : ℕ} (X : Matrix (Fin n) (Fin k) ℚ) (y : Fin n → ℚ)
    (b : Fin k → ℚ) (hb : IsLeastSq X y b) :
    X.mulVec b = X.mulVec (lstsq X y) := by
  have h1 : sumSq (y - X.mulVec b) ≤ sumSq (y - X.mulVec (lstsq X y)) := hb (lstsq X y)
  have hdecomp : y - X.mulVec b
      = (y - X.mulVec (lstsq X y)) + (X.mulVec (lstsq X y) - X.mulVec b) := by abel
  have hmem : X.mulVec (lstsq X y) - X.mulVec b ∈ LinearMap.range X.mulVecLin :=
    Submodule.sub_mem _ (mulVec_mem_range X _) (mulVec_mem_range X b)
  have h2 : sumSq (y - X.mulVec b)
      = sumSq (y - X.mulVec (lstsq X y)) + sumSq (X.mulVec (lstsq X y) - X.mulVec b) := by
    rw [hdecomp, sumSq_add_of_orth _ _ (lstsq_residual_orth X y _ hmem)]
  have h3 : sumSq (X.mulVec (lstsq X y) - X.mulVec b) = 0 :=
    le_antisymm (by linarith) (sumSq_nonneg _)
  have h4 : X.mulVec (lstsq X y) - X.mulVec b = 0 := by
    unfold sumSq at h3
    exact dotProduct_self_eq_zero.mp h3
  exact (sub_eq_zero.mp h4).symm

theorem lstsq_orth_ker {n k : ℕ} (X : Matrix (Fin n) (Fin k) ℚ) (y : Fin n → ℚ) :
    ∀ u ∈ LinearMap.ker X.mulVecLin, lstsq X y ⬝ᵥ u = 0 := by
  intro u hu
  have h := (projW_spec (LinearMap.ker X.mulVecLin)
      (Classical.choose (lstsq_pre_exists X y))).2 u hu
  simpa [lstsq] using h

theorem lstsq_min_norm {n k : ℕ} (X : Matrix (Fin n) (Fin k) ℚ) (y : Fin n → ℚ)
    (b : Fin k → ℚ) (hb : IsLeastSq X y b) :
    sumSq (lstsq X y) ≤ sumSq b := by
  have hXb : X.mulVec b = X.mulVec (lstsq X y) := isLeastSq_mulVec_eq X y b hb
  have hker : b - lstsq X y ∈ LinearMap.ker X.mulVecLin := by
    rw [LinearMap.mem_ker, map_sub, Matrix.mulVecLin_apply, Matrix.mulVecLin_apply, hXb,
      sub_self]
  have horth := lstsq_orth_ker X y _ hker
  have hdecomp : b = lstsq X y + (b - lstsq X y) := by abel
  have hnn := sumSq_nonneg (b - lstsq X y)
  have hsum : sumSq b = sumSq (lstsq X y) + sumSq (b - lstsq X y) := by
    rw [← sumSq_add_of_orth _ _ horth, ← hdecomp]
  linarith

theorem lstsq_isMinNormLeastSq {n k : ℕ} (X : Matrix (Fin n) (Fin k) ℚ) (y : Fin n → ℚ) :
    IsMinNormLeastSq X y (lstsq X y) :=
  ⟨lstsq_isLeastSq X y, fun b hb => lstsq_min_norm X y b hb⟩

/-- Claim C3 (amended): invoking the OLS solve on a design matrix with
fewer rows than columns (`N < k`) does **not** fail — `np.linalg.lstsq`
has no `UnderdeterminedSystem` failure path and returns the minimum-norm
least-squares solution — so no failure ever propagates out of a
leave-one-out refit for this reason. -/
theorem lstsq_underdetermined_no_failure {n k : ℕ} (X : Matrix (Fin n) (Fin k) ℚ)
    (y : Fin n → ℚ) (h : n < k) :
    np_linalg_lstsq X y = some (lstsq X y) ∧ IsMinNormLeastSq X y (lstsq X y) :=
  ⟨rfl, lstsq_isMinNormLeastSq X y⟩

/-- Witness for `lstsq_underdetermined_no_failure` at a concrete `1 × 2`
(underdetermined) system. -/
theorem lstsq_underdetermined_no_failure_witness :
    (1 : ℕ) < 2 ∧
      (np_linalg_lstsq !![(1 : ℚ), 1] (fun _ => 1)
          = some (lstsq !![(1 : ℚ), 1] (fun _ => 1)) ∧
        IsMinNormLeastSq !![(1 : ℚ), 1] (fun _ => 1) (lstsq !![(1 : ℚ), 1] (fun _ => 1))) :=
  ⟨by decide, lstsq_underdetermined_no_failure !![(1 : ℚ), 1] (fun _ => 1) (by decide)⟩

/-- Claim C3 (counterexample to the claim as stated): the solve on a
concrete `1 × 2` design matrix (`N = 1 < 2 = k`) returns a result instead
of failing with `UnderdeterminedSystem`. -/
theorem lstsq_underdetermined_succeeds_cex :
    (np_linalg_lstsq !![(1 : ℚ), 1] (fun _ => 1)).isSome = true := rfl

/-- Claim C7: on every rank-deficient design matrix (witnessed by a
nonzero kernel vector) the solve follows one single policy: it never
fails and returns the minimum-norm least-squares solution. -/
theorem lstsq_rank_deficient_min_norm_policy {n k : ℕ} (X : Matrix (Fin n) (Fin k) ℚ)
    (y : Fin n → ℚ) (v : Fin k → ℚ) (hv : v ≠ 0) (hXv : X.mulVec v = 0) :
    np_linalg_lstsq X y = some (lstsq X y) ∧ IsMinNormLeastSq X y (lstsq X y) :=
  ⟨rfl, lstsq_isMinNormLeastSq X y⟩

/-- Witness for `lstsq_rank_deficient_min_norm_policy` at a concrete
rank-deficient `2 × 2` matrix with duplicate columns. -/
theorem lstsq_rank_deficient_min_norm_policy_witness :
    (![(1 : ℚ), -1] ≠ 0 ∧ (!![(1 : ℚ), 1; 1, 1]).mulVec ![(1 : ℚ), -1] = 0) ∧
      (np_linalg_lstsq !![(1 : ℚ), 1; 1, 1] (fun _ => 1)
          = some (lstsq !![(1 : ℚ), 1; 1, 1] (fun _ => 1)) ∧
        IsMinNormLeastSq !![(1 : ℚ), 1; 1, 1] (fun _ => 1)
          (lstsq !![(1 : ℚ), 1; 1, 1] (fun _ => 1))) :=
  ⟨⟨by decide, by funext i; fin_cases i <;> simp [Matrix.mulVec, Matrix.dotProduct,
      Fin.sum_univ_two]⟩,
    lstsq_rank_deficient_min_norm_policy !![(1 : ℚ), 1; 1, 1] (fun _ => 1)
      ![(1 : ℚ), -1] (by decide)
      (by funext i; fin_cases i <;> simp [Matrix.mulVec, Matrix.dotProduct,
        Fin.sum_univ_two])⟩

/-- Claim C8: for a design matrix with more rows than columns and full
column rank, the least-squares residual is orthogonal to every column of
`X` (exactly, in rational arithmetic). -/
theorem lstsq_residual_orth_columns {n k : ℕ} (X : Matrix (Fin n) (Fin k) ℚ)
    (y : Fin n → ℚ) (hnk : k < n) (hrank : ∀ v : Fin k → ℚ, X.mulVec v = 0 → v = 0) :
    ∀ j : Fin k, (y - X.mulVec (lstsq X y)) ⬝ᵥ (fun i => X i j) = 0 := by
  intro j
  have hcol : X.mulVec (Pi.single j 1) = fun i => X i j := by
    rw [Matrix.mulVec_single_one]
    rfl
  have hmem : (fun i => X i j) ∈ LinearMap.range X.mulVecLin := by
    rw [← hcol]
    exact mulVec_mem_range X _
  exact lstsq_residual_orth X y _ hmem

/-- Witness for `lstsq_residual_orth_columns` at a concrete full-rank
`2 × 1` matrix, column `0`. -/
theorem lstsq_residual_orth_columns_witness :
    (1 : ℕ) < 2 ∧
      ((fun _ => (1 : ℚ)) - (!![(1 : ℚ); 0]).mulVec (lstsq !![(1 : ℚ); 0] (fun _ => 1)))
        ⬝ᵥ (fun i => (!![(1 : ℚ); 0]) i 0) = 0 := by
  refine ⟨by decide, ?_⟩
  refine lstsq_residual_orth_columns !![(1 : ℚ); 0] (fun _ => 1) (by decide) ?_ 0
  intro v h
  have h0 := congrFun h 0
  funext j
  fin_cases j
  simpa [Matrix.mulVec, Matrix.dotProduct] using h0

/-- Claim C1 (code bug): the claim says the training set drops exactly
index `i` and no other, but for every `i` with `1 ≤ i < n` the slice
`np.r_[0:i-1, i+1:n]` also drops index `i - 1`, a second index distinct
from `i`. -/
theorem indices_drop_not_exact (n i : ℕ) (h1 : 1 ≤ i) (h2 : i < n) :
    i - 1 ∉ indices i n ∧ i ∉ indices i n ∧ i - 1 ≠ i := by
  refine ⟨fun hmem => ?_, fun hmem => ?_, by omega⟩ <;>
  · simp only [indices, List.mem_append, List.mem_range, List.mem_range'_1] at hmem
    omega

/-- Witness for `indices_drop_not_exact` at `n = 3`, `i = 1`
(`indices 1 3 = [2]`, so index 0 is dropped together with index 1). -/
theorem indices_drop_not_exact_witness :
    1 ≤ 1 ∧ 1 < 3 ∧ (1 - 1 ∉ indices 1 3 ∧ 1 ∉ indices 1 3 ∧ 1 - 1 ≠ 1) :=
  ⟨by decide, by decide, indices_drop_not_exact 3 1 (by decide) (by decide)⟩

/-- Claim C4 (code bug): for every excluded index `i` with `1 ≤ i < n` the
LOO refit's training set has `n - 2` rows, not the `n - 1` rows that the
claimed score formula (`β₋ᵢ` refit on all rows except `i`) requires. -/
theorem indices_training_set_too_small (n i : ℕ) (h1 : 1 ≤ i) (h2 : i < n) :
    (indices i n).length = n - 2 := by
  simp only [indices, List.length_append, List.length_range, List.length_range']
  omega

/-- Witness for `indices_training_set_too_small` at `n = 4`, `i = 2`. -/
theorem indices_training_set_too_small_witness :
    1 ≤ 2 ∧ 2 < 4 ∧ (indices 2 4).length = 4 - 2 :=
  ⟨by decide, by decide, indices_training_set_too_small 4 2 (by decide) (by decide)⟩

/-- Claim C2 (counterexample to the claim as stated): building with
`k = 2 > 1 = length(basisVectors)` succeeds (the slice silently
truncates) instead of failing with `InvalidBasisCount`. -/
theorem design_matrix_k_too_large_succeeds_cex :
    (design_matrix [[(1 : ℚ), 2]] 2).isSome = true := by decide

/-- Claim C2 (amended): building with `k = 0` fails (`np.vstack` of an
empty list raises), and on a nonempty basis list every `k ≥ 1` succeeds —
including `k > length(basisVectors)`, for which the slice silently
truncates instead of failing. -/
theorem design_matrix_fail_iff (bvs : List (List ℚ)) (k : ℕ) :
    design_matrix bvs 0 = none ∧
      (bvs ≠ [] → 1 ≤ k → (design_matrix bvs k).isSome = true) := by
  constructor
  · simp [design_matrix]
  · intro hne hk
    obtain ⟨b, bs, rfl⟩ : ∃ b bs, bvs = b :: bs := by
      cases bvs with
      | nil => exact absurd rfl hne
      | cons b bs => exact ⟨b, bs, rfl⟩
    cases k with
    | zero => omega
    | succ k => simp [design_matrix]

/-- Witness for `design_matrix_fail_iff` at a concrete one-vector basis. -/
theorem design_matrix_fail_iff_witness :
    ([[(1 : ℚ)]] ≠ ([] : List (List ℚ))) ∧ 1 ≤ 1 ∧
      (design_matrix [[(1 : ℚ)]] 0 = none ∧ (design_matrix [[(1 : ℚ)]] 1).isSome = true) :=
  ⟨by decide, by decide, (design_matrix_fail_iff [[(1 : ℚ)]] 1).1,
    (design_matrix_fail_iff [[(1 : ℚ)]] 1).2 (by decide) (by decide)⟩

/-- Claim C6: for every basis list whose vectors all have length `N` and
every `k` with `1 ≤ k ≤ length(basisVectors)`, the builder returns an
`N × k` matrix whose entry `(i, j)` is `basisVectors[j][i]` — column `j`
equals basis vector `j`. -/
theorem design_matrix_columns (bvs : List (List ℚ)) (k N : ℕ)
    (hN : ∀ b ∈ bvs, b.length = N) (hk1 : 1 ≤ k) (hk2 : k ≤ bvs.length) :
    ∃ M, design_matrix bvs k = some M ∧ M.length = N ∧
      (∀ row ∈ M, row.length = k) ∧
      ∀ i < N, ∀ j < k, (M.getD i []).getD j 0 = (bvs.getD j []).getD i 0 := by
  have hlen : (bvs.take k).length = k := by
    rw [List.length_take]
    omega
  obtain ⟨b, bs, heq⟩ : ∃ b bs, bvs.take k = b :: bs := by
    cases htk : bvs.take k with
    | nil => rw [htk] at hlen; simp at hlen; omega
    | cons b bs => exact ⟨b, bs, rfl⟩
  have hbmem : b ∈ bvs := List.mem_of_mem_take (heq ▸ List.mem_cons_self b bs)
  have hbN : b.length = N := hN b hbmem
  refine ⟨(List.range b.length).map fun i => (b :: bs).map fun c => c.getD i 0, ?_, ?_, ?_, ?_⟩
  · unfold design_matrix
    rw [heq]
  · simp [hbN]
  · intro row hrow
    obtain ⟨i, _, rfl⟩ := List.mem_map.mp hrow
    have hclen : (b :: bs).length = k := by
      rw [← heq]
      exact hlen
    simpa using hclen
  · intro i hi j hj
    have hgetRow : ((List.range b.length).map fun i => (b :: bs).map fun c => c.getD i 0).getD i []
        = (b :: bs).map fun c => c.getD i 0 := by
      rw [List.getD_eq_getElem?_getD, List.getElem?_map, List.getElem?_range (by omega)]
      rfl
    have hjbvs : j < bvs.length := by omega
    have hcol : (b :: bs)[j]? = bvs[j]? := by
      rw [← heq]
      exact List.getElem?_take_of_lt hj
    have hgetCell : ((b :: bs).map fun c => c.getD i 0).getD j 0 = (bvs.getD j []).getD i 0 := by
      rw [List.getD_eq_getElem?_getD, List.getElem?_map, hcol,
        List.getElem?_eq_getElem hjbvs, List.getD_eq_getElem?_getD bvs j,
        List.getElem?_eq_getElem hjbvs]
      rfl
    rw [hgetRow, hgetCell]

/-- Witness for `design_matrix_columns` on a two-vector basis of length 2. -/
theorem design_matrix_columns_witness :
    (∀ b ∈ [[(1 : ℚ), 2], [3, 4]], b.length = 2) ∧ 1 ≤ 2 ∧ 2 ≤ ([[(1 : ℚ), 2], [3, 4]]).length ∧
      (∃ M, design_matrix [[(1 : ℚ), 2], [3, 4]] 2 = some M ∧ M.length = 2 ∧
        (∀ row ∈ M, row.length = 2) ∧
        ∀ i < 2, ∀ j < 2, (M.getD i []).getD j 0 = (([[(1 : ℚ), 2], [3, 4]]).getD j []).getD i 0) :=
  ⟨by decide, by decide, by decide,
    design_matrix_columns [[(1 : ℚ), 2], [3, 4]] 2 2 (by decide) (by decide) (by decide)⟩

theorem looBody_foldl_frame (k : ℕ) (l : List ℕ) (s : LooState) :
    ((l.foldl (looBody k) s).basis_vectors = s.basis_vectors ∧
      (l.foldl (looBody k) s).x = s.x) ∧
      (l.foldl (looBody k) s).y = s.y ∧ (l.foldl (looBody k) s).dm = s.dm := by
  induction l generalizing s with
  | nil => exact ⟨⟨rfl, rfl⟩, rfl, rfl⟩
  | cons i l ih =>
    have hstep := ih (looBody k s i)
    simpa [List.foldl_cons, looBody] using hstep

/-- Claim C9: the LOO computation never mutates its inputs — after the
whole loop runs, the basis vectors, the `x` values, the observation
vector `y` and the design matrix held in the loop state are unchanged;
only the accumulator is written (and `loo_statistic` reads it off). -/
theorem loo_statistic_preserves_inputs (k : ℕ) (bvs : List (List ℚ)) (xv yv : List ℚ)
    (dm : List (List ℚ)) :
    ((List.range xv.length).foldl (looBody k) ⟨bvs, xv, yv, dm, 0⟩).basis_vectors = bvs ∧
      ((List.range xv.length).foldl (looBody k) ⟨bvs, xv, yv, dm, 0⟩).x = xv ∧
      ((List.range xv.length).foldl (looBody k) ⟨bvs, xv, yv, dm, 0⟩).y = yv ∧
      ((List.range xv.length).foldl (looBody k) ⟨bvs, xv, yv, dm, 0⟩).dm = dm ∧
      loo_statistic k bvs xv yv dm
        = ((List.range xv.length).foldl (looBody k) ⟨bvs, xv, yv, dm, 0⟩).acc / xv.length := by
  obtain ⟨⟨h1, h2⟩, h3, h4⟩ := looBody_foldl_frame k (List.range xv.length) ⟨bvs, xv, yv, dm, 0⟩
  exact ⟨h1, h2, h3, h4, rfl⟩

theorem keyLe_total (a b : ScoreEntry) : keyLe a b ∨ keyLe b a := by
  unfold keyLe
  rcases lt_trichotomy a.estimate b.estimate with h | h | h
  · exact Or.inl (Or.inl h)
  · rcases Nat.le_total a.nBasis b.nBasis with hn | hn
    · exact Or.inl (Or.inr ⟨h, hn⟩)
    · exact Or.inr (Or.inr ⟨h.symm, hn⟩)
  · exact Or.inr (Or.inl h)

theorem keyLe_trans (a b c : ScoreEntry) : keyLe a b → keyLe b c → keyLe a c := by
  unfold keyLe
  rintro (h | ⟨he, hn⟩) (h' | ⟨he', hn'⟩)
  · exact Or.inl (h.trans h')
  · exact Or.inl (he' ▸ h)
  · exact Or.inl (he ▸ h')
  · exact Or.inr ⟨he.trans he', hn.trans hn'⟩

theorem mem_insertRow (x e : ScoreEntry) : ∀ l : List ScoreEntry,
    x ∈ insertRow e l ↔ x = e ∨ x ∈ l
  | [] => by simp [insertRow]
  | f :: fs => by
    by_cases h : keyLe e f
    · simp [insertRow, h]
    · simp only [insertRow, if_neg h, List.mem_cons, mem_insertRow x e fs]
      tauto

theorem insertRow_pairwise (e : ScoreEntry) : ∀ l : List ScoreEntry,
    l.Pairwise keyLe → (insertRow e l).Pairwise keyLe
  | [], _ => by simp [insertRow, List.pairwise_cons]
  | f :: fs, h => by
    rcases List.pairwise_cons.mp h with ⟨hf, hfs⟩
    by_cases hef : keyLe e f
    · rw [insertRow, if_pos hef]
      refine List.pairwise_cons.mpr ⟨?_, h⟩
      intro g hg
      rcases List.mem_cons.mp hg with rfl | hg
      · exact hef
      · exact keyLe_trans e f g hef (hf g hg)
    · rw [insertRow, if_neg hef]
      refine List.pairwise_cons.mpr ⟨?_, insertRow_pairwise e fs hfs⟩
      intro g hg
      rcases (mem_insertRow g e fs).mp hg with rfl | hg
      · exact (keyLe_total _ _).resolve_left hef
      · exact hf g hg

theorem sortRows_pairwise : ∀ l : List ScoreEntry, (sortRows l).Pairwise keyLe
  | [] => by simp [sortRows]
  | e :: es => insertRow_pairwise e (sortRows es) (sortRows_pairwise es)

theorem length_insertRow (e : ScoreEntry) : ∀ l : List ScoreEntry,
    (insertRow e l).length = l.length + 1
  | [] => rfl
  | f :: fs => by
    by_cases h : keyLe e f
    · simp [insertRow, h]
    · simp [insertRow, h, length_insertRow e fs]

theorem length_sortRows : ∀ l : List ScoreEntry, (sortRows l).length = l.length
  | [] => rfl
  | e :: es => by simp [sortRows, length_insertRow, length_sortRows es]

theorem filter_insertRow (q : ℚ) (mb : ℕ) (e : ScoreEntry) : ∀ l : List ScoreEntry,
    (insertRow e l).filter (fun f => decide (f.estimate = q) && decide (f.nBasis = mb))
      = if e.estimate = q ∧ e.nBasis = mb
        then e :: l.filter (fun f => decide (f.estimate = q) && decide (f.nBasis = mb))
        else l.filter (fun f => decide (f.estimate = q) && decide (f.nBasis = mb))
  | [] => by
    by_cases hpe : e.estimate = q ∧ e.nBasis = mb
    · rw [if_pos hpe]
      simp [insertRow, List.filter_cons, hpe.1, hpe.2]
    · rw [if_neg hpe]
      simp [insertRow, List.filter_cons, hpe]
  | f :: fs => by
    by_cases hef : keyLe e f
    · by_cases hpe : e.estimate = q ∧ e.nBasis = mb <;>
        simp [insertRow, hef, List.filter_cons, hpe]
    · by_cases hpe : e.estimate = q ∧ e.nBasis = mb
      · have hpf : ¬(f.estimate = q ∧ f.nBasis = mb) := by
          rintro ⟨hfq, hfm⟩
          exact hef (Or.inr ⟨by rw [hfq, hpe.1], by rw [hfm, hpe.2]⟩)
        rw [insertRow, if_neg hef, List.filter_cons, List.filter_cons,
          filter_insertRow q mb e fs, if_pos hpe]
        simp [hpf, hpe]
      · rw [insertRow, if_neg hef, List.filter_cons, List.filter_cons,
          filter_insertRow q mb e fs]
        simp only [if_neg hpe]

theorem filter_sortRows (q : ℚ) (mb : ℕ) : ∀ l : List ScoreEntry,
    (sortRows l).filter (fun f => decide (f.estimate = q) && decide (f.nBasis = mb))
      = l.filter (fun f => decide (f.estimate = q) && decide (f.nBasis = mb))
  | [] => rfl
  | e :: es => by
    rw [sortRows, filter_insertRow, filter_sortRows q mb es, List.filter_cons]
    by_cases hpe : e.estimate = q ∧ e.nBasis = mb
    · rw [if_pos hpe]
      simp [hpe.1, hpe.2]
    · rw [if_neg hpe]
      simp only [Bool.and_eq_true, decide_eq_true_eq]
      rw [if_neg hpe]

theorem length_attachRows (best : ℚ) : ∀ (r : ℕ) (l : List ScoreEntry),
    (attachRows best r l).length = l.length
  | _, [] => rfl
  | r, e :: es => by simp [attachRows, length_attachRows best (r + 1) es]

theorem mem_attachRows (best : ℚ) : ∀ (r : ℕ) (l : List ScoreEntry)
    (row : CompareRow), row ∈ attachRows best r l →
      ∃ e ∈ l, row.estimate = e.estimate ∧ row.delta = e.estimate - best
  | _, [], _, h => by simp [attachRows] at h
  | r, e :: es, row, h => by
    rcases List.mem_cons.mp h with rfl | h
    · exact ⟨e, List.mem_cons_self e es, rfl, rfl⟩
    · obtain ⟨f, hf, h1, h2⟩ := mem_attachRows best (r + 1) es row h
      exact ⟨f, List.mem_cons_of_mem e hf, h1, h2⟩

theorem attachRows_pairwise (best : ℚ) : ∀ (r : ℕ) (l : List ScoreEntry),
    l.Pairwise keyLe →
      (attachRows best r l).Pairwise (fun r₁ r₂ => r₁.estimate ≤ r₂.estimate)
  | _, [], _ => by simp [attachRows]
  | r, e :: es, h => by
    rcases List.pairwise_cons.mp h with ⟨he, hes⟩
    refine List.pairwise_cons.mpr ⟨?_, attachRows_pairwise best (r + 1) es hes⟩
    intro row hrow
    obtain ⟨f, hf, h1, _⟩ := mem_attachRows best (r + 1) es row hrow
    have : e.estimate ≤ f.estimate := by
      rcases he f hf with hlt | ⟨heq, _⟩
      · exact le_of_lt hlt
      · exact le_of_eq heq
    rw [h1]
    exact this

/-- Claim C5: the Model Comparison Table is sorted ascending by estimate
(adjacent rows satisfy `row[i].estimate ≤ row[i+1].estimate`), the
underlying sort respects the full tie-break order (estimate, then fewer
basis vectors) and keeps equal-keyed entries in insertion order (the
filter at any fixed key is preserved), no row is lost, the top row has
`delta = 0` and the smallest estimate, and every row's `delta` is its
estimate minus the best estimate. -/
theorem az_compare_table (scores : List ScoreEntry) :
    ((az_compare scores).Chain' (fun r₁ r₂ => r₁.estimate ≤ r₂.estimate) ∧
      (sortRows scores).Pairwise keyLe ∧
      (az_compare scores).length = scores.length) ∧
    (∀ r rs, az_compare scores = r :: rs →
      r.delta = 0 ∧ ∀ row ∈ az_compare scores,
        r.estimate ≤ row.estimate ∧ row.delta = row.estimate - r.estimate) ∧
    ∀ (q : ℚ) (mb : ℕ),
      (sortRows scores).filter (fun f => decide (f.estimate = q) && decide (f.nBasis = mb))
        = scores.filter (fun f => decide (f.estimate = q) && decide (f.nBasis = mb)) := by
  have hp := sortRows_pairwise scores
  refine ⟨⟨?_, hp, ?_⟩, ?_, fun q mb => filter_sortRows q mb scores⟩
  · cases hs : sortRows scores with
    | nil => simp [az_compare, hs]
    | cons best rest =>
      have hp2 : (best :: rest).Pairwise keyLe := hs ▸ hp
      have hpa := attachRows_pairwise best.estimate 0 (best :: rest) hp2
      simp only [az_compare, hs]
      exact hpa.chain'
  · cases hs : sortRows scores with
    | nil =>
      have h0 : scores.length = 0 := by rw [← length_sortRows scores, hs]; rfl
      simp [az_compare, hs, h0]
    | cons best rest =>
      have hlen : scores.length = (best :: rest).length := by
        rw [← length_sortRows scores, hs]
      simp only [az_compare, hs]
      rw [length_attachRows, hlen]
  · intro r rs heq
    cases hs : sortRows scores with
    | nil =>
      have haz : az_compare scores = [] := by simp [az_compare, hs]
      rw [haz] at heq
      exact absurd heq (by simp)
    | cons best rest =>
      have hp2 : (best :: rest).Pairwise keyLe := hs ▸ hp
      have haz : az_compare scores = attachRows best.estimate 0 (best :: rest) := by
        simp [az_compare, hs]
      have hexp : attachRows best.estimate 0 (best :: rest)
          = ⟨best.ident, 0, best.estimate, best.stdErr, best.estimate - best.estimate⟩ ::
            attachRows best.estimate 1 rest := rfl
      rw [haz, hexp] at heq
      obtain ⟨hr, _⟩ := List.cons.inj heq
      refine ⟨?_, ?_⟩
      · rw [← hr]
        exact sub_self best.estimate
      · intro row hrow
        rw [haz] at hrow
        obtain ⟨e, he, h1, h2⟩ := mem_attachRows best.estimate 0 (best :: rest) row hrow
        have hbe : best.estimate ≤ e.estimate := by
          rcases List.mem_cons.mp he with rfl | he'
          · exact le_refl _
          · rcases (List.pairwise_cons.mp hp2).1 e he' with hlt | ⟨heq', _⟩
            · exact le_of_lt hlt
            · exact le_of_eq heq'
        constructor
        · rw [← hr, h1]
          exact hbe
        · rw [← hr, h2, h1]

/-- Witness for `az_compare_table`: a concrete two-model table; the
second-inserted model has the better (smaller) estimate and ends up on
top with `delta = 0`. -/
theorem az_compare_table_witness :
    az_compare [⟨0, 1, 3, 1⟩, ⟨1, 2, 2, 1⟩]
        = ⟨1, 0, 2, 1, 0⟩ :: [⟨0, 1, 3, 1, 1⟩] ∧
      (⟨1, 0, 2, 1, 0⟩ : CompareRow).delta = 0 := by
  refine ⟨by norm_num [az_compare, sortRows, insertRow, attachRows, keyLe], ?_⟩
  exact (((az_compare_table [⟨0, 1, 3, 1⟩, ⟨1, 2, 2, 1⟩]).2.1
    ⟨1, 0, 2, 1, 0⟩ [⟨0, 1, 3, 1, 1⟩]
    (by norm_num [az_compare, sortRows, insertRow, attachRows, keyLe]))).1
